import Mathlib

/-!
Verification of the TinyXVC front-end (src/txvc.c): profile alias
substitution, profile parsing, driver lookup/activation, and the exit
behaviour of main.  Strings are modelled as NUL-free lists of characters
(C strings cannot contain NUL), the alias table and driver registry as
lists (the C sentinel-terminated arrays), and machine behaviour such as
strncpy truncation explicitly.
-/

set_option autoImplicit false

/-- An entry of the alias table (struct txvc_profile_alias). -/
structure ProfileAlias where
  aliasName : List Char
  profile : List Char
  description : List Char
deriving Repr

/-- A driver descriptor (struct txvc_driver): its name and its activation
contract.  The activation contract receives the parsed argument pairs (in the
C code, two parallel 32-slot arrays whose used prefix holds the pairs in
order) and reports success.  Help text and deactivation are irrelevant to the
claims and omitted. -/
structure Driver where
  name : List Char
  activate : List (List Char × List Char) → Bool

/-- Alias substitution, txvc.c lines 161-167: one in-order pass over the
alias table; each entry whose alias equals the current working string
replaces the whole working string with that entry's profile, and the scan
continues with the remaining entries against the new string. -/
def substAliases : List ProfileAlias → List Char → List Char
  | [], p => p
  | a :: rest, p => substAliases rest (if p = a.aliasName then a.profile else p)

/-- Alias substitution instrumented with the number of substitutions
performed (the number of loop iterations whose strcmp matched). -/
def substAliasesCount : List ProfileAlias → List Char → List Char × Nat
  | [], p => (p, 0)
  | a :: rest, p =>
    if p = a.aliasName then
      let r := substAliasesCount rest a.profile
      (r.1, r.2 + 1)
    else substAliasesCount rest p

/-- Split a list at the first occurrence of character c: returns the part
before and the part after that occurrence (strchr followed by writing NUL
over the found character), or none if c does not occur. -/
def splitFirst (c : Char) : List Char → Option (List Char × List Char)
  | [] => none
  | x :: xs =>
    if x = c then some ([], xs)
    else
      match splitFirst c xs with
      | some r => some (x :: r.1, r.2)
      | none => none

/-- Cut one pair segment at its first = : name before, value after; a
segment with no = becomes a name with empty value (txvc.c lines 192-198). -/
def parsePair (seg : List Char) : List Char × List Char :=
  match splitFirst '=' seg with
  | some r => (r.1, r.2)
  | none => (seg, [])

/-- The pair-collection loop of txvc.c lines 185-199.  The fuel argument is
the number of remaining argument slots (32 at entry).  The loop stops when
the slots are exhausted, when the remaining text is empty, or (after
emitting a final pair) when no comma follows. -/
def parsePairs : Nat → List Char → List (List Char × List Char)
  | 0, _ => []
  | _ + 1, [] => []
  | n + 1, x :: xs =>
    match splitFirst ',' (x :: xs) with
    | some r => parsePair r.1 :: parsePairs n r.2
    | none => [parsePair (x :: xs)]

/-- Number of argument slots in txvc.c (argNames[32]). -/
def maxArgs : Nat := 32

/-- Size of the scratch buffer in activate_driver (char args[1024]); with
the forced terminating NUL at index 1023 the effective capacity is 1023
characters. -/
def scratchCapacity : Nat := 1023

/-- strncpy of the profile into the 1024-byte scratch buffer with a forced
NUL at the last index, txvc.c lines 174-176: the string is truncated to
1023 characters. -/
def scratchCopy (s : List Char) : List Char := s.take scratchCapacity

/-- The lexical profile parse of txvc.c lines 178-200, applied to the
scratch buffer contents: the part before the first colon is the driver
name; if a colon is present the remainder is cut into at most 32 argument
pairs.  With no colon the whole string is the driver name and there are no
arguments. -/
def parseProfile (s : List Char) : List Char × List (List Char × List Char) :=
  match splitFirst ':' s with
  | none => (s, [])
  | some r => (r.1, parsePairs maxArgs r.2)

/-- Modelled from the spec: txvc_enumerate_drivers (declared in driver.h,
implemented outside the given sources) is, per the spec, a registry
iteration primitive that, given a predicate over descriptors, returns the
first matching descriptor or none.  main's find_by_name instantiates it
with name equality. -/
def txvc_enumerate_drivers (pred : Driver → Bool) (registry : List Driver) :
    Option Driver :=
  registry.find? pred

/-- Registry lookup by exact name match, as find_by_name (txvc.c lines
155-158) composed with the enumeration primitive. -/
def findDriver (registry : List Driver) (name : List Char) : Option Driver :=
  txvc_enumerate_drivers (fun d => decide (d.name = name)) registry

/-- Error reports emitted by activate_driver (the two ERROR calls at txvc.c
lines 205 and 209). -/
inductive LogEvent where
  | driverNotFound (name : List Char)
  | activationFailed (name : List Char)
deriving Repr, DecidableEq

/-- Result of activate_driver: the returned driver handle (none on any
failure), the list of activation-contract invocations performed during the
call (recorded as driver name and argument pairs), and the errors
reported. -/
structure ActivationOutcome where
  driver : Option Driver
  invocations : List (List Char × List (List Char × List Char))
  logs : List LogEvent

/-- activate_driver, txvc.c lines 160-212: alias substitution, copy into
the bounded scratch buffer, lexical parse, registry lookup, and at most one
invocation of the matched driver's activation contract. -/
def activate_driver (aliases : List ProfileAlias) (registry : List Driver)
    (profile : List Char) : ActivationOutcome :=
  let resolved := substAliases aliases profile
  let parsed := parseProfile (scratchCopy resolved)
  match findDriver registry parsed.1 with
  | some d =>
    if d.activate parsed.2 then
      ⟨some d, [(d.name, parsed.2)], []⟩
    else
      ⟨none, [(d.name, parsed.2)], [LogEvent.activationFailed d.name]⟩
  | none => ⟨none, [], [LogEvent.driverNotFound parsed.1]⟩

/-- The CLI options record of txvc.c (struct cli_options), as it stands
after a successful parse_cli_options. -/
structure CliOptions where
  serverAddr : Option (List Char)
  profile : Option (List Char)
  verbose : Bool
  help : Bool

/-- Observable outcome of one run of main: the process exit status, whether
txvc_run_server was invoked, and the errors reported by activate_driver. -/
structure RunResult where
  exitCode : Nat
  serverInvoked : Bool
  logs : List LogEvent
deriving Repr

/-- main after a successful CLI parse, txvc.c lines 221-243: help prints
usage and exits 0; a missing profile exits EXIT_FAILURE (modelled as 1);
otherwise activate_driver runs, the server loop runs only when a driver
handle was returned, and main returns 0. -/
def mainRun (aliases : List ProfileAlias) (registry : List Driver)
    (opts : CliOptions) : RunResult :=
  if opts.help then ⟨0, false, []⟩
  else
    match opts.profile with
    | none => ⟨1, false, []⟩
    | some p =>
      let out := activate_driver aliases registry p
      match out.driver with
      | some _ => ⟨0, true, out.logs⟩
      | none => ⟨0, false, out.logs⟩

/-- Rendering of an argument list into the textual profile form
n0=v0,n1=v1,... (the inverse direction of the parse, used to state
round-trip claims about well-formed profile strings). -/
def renderPairs : List (List Char × List Char) → List Char
  | [] => []
  | [p] => p.1 ++ '=' :: p.2
  | p :: q :: rest => p.1 ++ '=' :: (p.2 ++ ',' :: renderPairs (q :: rest))

/-! ### Lemmas about splitFirst -/

theorem splitFirst_eq_none (c : Char) (s : List Char) :
    splitFirst c s = none ↔ c ∉ s := by
  induction s with
  | nil => simp [splitFirst]
  | cons x xs ih =>
    by_cases hx : x = c
    · subst hx
      simp [splitFirst]
    · cases h : splitFirst c xs with
      | some r =>
        have hmem : c ∈ xs := by
          by_contra hc
          rw [ih.mpr hc] at h
          exact Option.noConfusion h
        simp [splitFirst, hx, h, hmem]
      | none =>
        have hns : c ∉ xs := ih.mp h
        simp [splitFirst, hx, h, hns, Ne.symm hx]

theorem splitFirst_append (c : Char) (b a : List Char) (hb : c ∉ b) :
    splitFirst c (b ++ c :: a) = some (b, a) := by
  induction b with
  | nil => simp [splitFirst]
  | cons x xs ih =>
    have hx : ¬ x = c := by
      rintro rfl
      exact hb (List.mem_cons_self x xs)
    have hxs : c ∉ xs := fun h => hb (List.mem_cons_of_mem _ h)
    simp [splitFirst, hx, ih hxs]

theorem splitFirst_eq_some (c : Char) : ∀ (s b a : List Char),
    splitFirst c s = some (b, a) → s = b ++ c :: a ∧ c ∉ b := by
  intro s
  induction s with
  | nil => intro b a h; simp [splitFirst] at h
  | cons x xs ih =>
    intro b a h
    by_cases hx : x = c
    · subst hx
      simp [splitFirst] at h
      obtain ⟨h1, h2⟩ := h
      subst h1
      subst h2
      simp
    · cases h2 : splitFirst c xs with
      | some r =>
        simp [splitFirst, hx, h2] at h
        obtain ⟨hr, hxxs⟩ := ih r.1 r.2 (by simp [h2])
        constructor
        · rw [← h.1, ← h.2, hr]
          simp
        · rw [← h.1]
          intro hc
          rcases List.mem_cons.mp hc with hc1 | hc2
          · exact hx hc1.symm
          · exact hxxs hc2
      | none => simp [splitFirst, hx, h2] at h

/-! ### Lemmas about alias substitution -/

theorem substAliases_no_match : ∀ (t : List ProfileAlias) (p : List Char),
    (∀ a ∈ t, a.aliasName ≠ p) → substAliases t p = p := by
  intro t
  induction t with
  | nil => intro p _; rfl
  | cons a rest ih =>
    intro p h
    have ha : ¬ p = a.aliasName := fun e => h a (List.mem_cons_self a rest) e.symm
    simp only [substAliases, if_neg ha]
    exact ih p (fun b hb => h b (List.mem_cons_of_mem _ hb))

theorem substAliasesCount_fst : ∀ (t : List ProfileAlias) (p : List Char),
    (substAliasesCount t p).1 = substAliases t p := by
  intro t
  induction t with
  | nil => intro p; rfl
  | cons a rest ih =>
    intro p
    by_cases hp : p = a.aliasName
    · simp [substAliasesCount, substAliases, hp, ih]
    · simp [substAliasesCount, substAliases, hp, ih]

theorem substAliasesCount_le : ∀ (t : List ProfileAlias) (p : List Char),
    (substAliasesCount t p).2 ≤ t.length := by
  intro t
  induction t with
  | nil => intro p; exact Nat.le_refl 0
  | cons a rest ih =>
    intro p
    by_cases hp : p = a.aliasName
    · simp only [substAliasesCount, if_pos hp, List.length_cons]
      exact Nat.succ_le_succ (ih a.profile)
    · simp only [substAliasesCount, if_neg hp, List.length_cons]
      exact Nat.le_succ_of_le (ih p)

/-! ### Lemmas about the pair-collection loop -/

theorem parsePairs_take : ∀ (n m : Nat) (cur : List Char), cur.length < m →
    parsePairs n cur = (parsePairs m cur).take n := by
  intro n
  induction n with
  | zero => intro m cur _; rfl
  | succ n ih =>
    intro m cur hm
    match m, cur with
    | m + 1, [] => simp [parsePairs]
    | m + 1, x :: xs =>
      cases h : splitFirst ',' (x :: xs) with
      | some r =>
        obtain ⟨hdec, _⟩ := splitFirst_eq_some ',' (x :: xs) r.1 r.2 (by rw [h])
        have hlen : r.2.length < m := by
          have : (x :: xs).length = r.1.length + 1 + r.2.length := by
            rw [hdec]; simp; omega
          omega
        simp only [parsePairs, h, List.take_succ_cons]
        exact congrArg _ (ih m r.2 hlen)
      | none => simp [parsePairs, h]

theorem parsePairs_nil (n : Nat) : parsePairs n [] = [] := by
  cases n with
  | zero => rfl
  | succ n => rfl

theorem parsePairs_cons (n : Nat) (cur : List Char) (h : cur ≠ []) :
    parsePairs (n + 1) cur =
      match splitFirst ',' cur with
      | some r => parsePair r.1 :: parsePairs n r.2
      | none => [parsePair cur] := by
  cases cur with
  | nil => exact absurd rfl h
  | cons x xs => rfl

theorem parsePair_render (nm v : List Char) (h : '=' ∉ nm) :
    parsePair (nm ++ '=' :: v) = (nm, v) := by
  simp [parsePair, splitFirst_append '=' nm v h]

theorem comma_not_mem_segment (nm v : List Char) (hn : ',' ∉ nm) (hv : ',' ∉ v) :
    ',' ∉ nm ++ '=' :: v := by
  intro h
  rcases List.mem_append.mp h with h1 | h2
  · exact hn h1
  · rcases List.mem_cons.mp h2 with h3 | h4
    · exact absurd h3 (by decide)
    · exact hv h4

theorem parsePairs_render : ∀ (pairs : List (List Char × List Char)) (fuel : Nat),
    pairs.length ≤ fuel →
    (∀ p ∈ pairs, ',' ∉ p.1 ∧ '=' ∉ p.1 ∧ ',' ∉ p.2) →
    parsePairs fuel (renderPairs pairs) = pairs := by
  intro pairs
  induction pairs with
  | nil => intro fuel _ _; exact parsePairs_nil fuel
  | cons p rest ih =>
    intro fuel hlen hcond
    obtain ⟨hc1, hc2, hc3⟩ := hcond p (List.mem_cons_self p rest)
    obtain ⟨fuel, rfl⟩ : ∃ m, fuel = m + 1 := by
      cases fuel with
      | zero => simp at hlen
      | succ m => exact ⟨m, rfl⟩
    cases rest with
    | nil =>
      have hne : renderPairs [p] ≠ [] := by
        simp [renderPairs]
      rw [parsePairs_cons fuel _ hne]
      have hnc : splitFirst ',' (renderPairs [p]) = none :=
        (splitFirst_eq_none ',' _).mpr (comma_not_mem_segment p.1 p.2 hc1 hc3)
      simp only [renderPairs] at hnc ⊢
      rw [hnc]
      simp [parsePair_render p.1 p.2 hc2]
    | cons q rs =>
      have hassoc : renderPairs (p :: q :: rs) =
          (p.1 ++ '=' :: p.2) ++ ',' :: renderPairs (q :: rs) := by
        simp [renderPairs]
      have hne : renderPairs (p :: q :: rs) ≠ [] := by
        rw [hassoc]
        intro hnil
        have := (List.append_eq_nil.mp hnil).2
        exact absurd this (by simp)
      rw [parsePairs_cons fuel _ hne]
      have hsp : splitFirst ',' (renderPairs (p :: q :: rs)) =
          some (p.1 ++ '=' :: p.2, renderPairs (q :: rs)) := by
        rw [hassoc]
        exact splitFirst_append ',' _ _ (comma_not_mem_segment p.1 p.2 hc1 hc3)
      rw [hsp]
      simp only []
      rw [parsePair_render p.1 p.2 hc2]
      have hlen2 : (q :: rs).length ≤ fuel := by
        simp only [List.length_cons] at hlen ⊢
        omega
      rw [ih fuel hlen2 (fun b hb => hcond b (List.mem_cons_of_mem _ hb))]

theorem parsePairs_append_comma : ∀ (n : Nat) (rest : List Char), rest ≠ [] →
    rest.getLast? ≠ some ',' → parsePairs n (rest ++ [',']) = parsePairs n rest := by
  intro n
  induction n with
  | zero => intro rest _ _; rfl
  | succ n ih =>
    intro rest hne hlast
    have hne2 : rest ++ [','] ≠ [] := by simp
    rw [parsePairs_cons n _ hne2, parsePairs_cons n rest hne]
    cases h : splitFirst ',' rest with
    | none =>
      have hmem : ',' ∉ rest := (splitFirst_eq_none ',' rest).mp h
      have hsp : splitFirst ',' (rest ++ [',']) = some (rest, []) :=
        splitFirst_append ',' rest [] hmem
      simp [hsp, h, parsePairs_nil]
    | some r =>
      obtain ⟨hdec, hnb⟩ := splitFirst_eq_some ',' rest r.1 r.2 (by rw [h])
      have hr2ne : r.2 ≠ [] := by
        intro hnil
        apply hlast
        rw [hdec, hnil, List.getLast?_append_cons]
        rfl
      have hlast2 : r.2.getLast? ≠ some ',' := by
        intro hc
        apply hlast
        rw [hdec, List.getLast?_append_cons]
        cases r2 : r.2 with
        | nil => exact absurd r2 hr2ne
        | cons y ys =>
          rw [List.getLast?_cons_cons, ← r2]
          exact hc
      have hsp : splitFirst ',' (rest ++ [',']) = some (r.1, r.2 ++ [',']) := by
        rw [hdec]
        have hre : (r.1 ++ ',' :: r.2) ++ [','] = r.1 ++ ',' :: (r.2 ++ [',']) := by
          simp
        rw [hre]
        exact splitFirst_append ',' r.1 (r.2 ++ [',']) hnb
      simp only [hsp, h]
      rw [ih r.2 hr2ne hlast2]

/-! ### Unfolding lemmas for activate_driver and mainRun -/

theorem activate_driver_not_found (aliases : List ProfileAlias)
    (registry : List Driver) (profile : List Char)
    (h : findDriver registry
        (parseProfile (scratchCopy (substAliases aliases profile))).1 = none) :
    activate_driver aliases registry profile =
      ⟨none, [],
        [LogEvent.driverNotFound
          (parseProfile (scratchCopy (substAliases aliases profile))).1]⟩ := by
  unfold activate_driver
  simp only [h]

theorem activate_driver_invocations_le_one (aliases : List ProfileAlias)
    (registry : List Driver) (profile : List Char) :
    (activate_driver aliases registry profile).invocations.length ≤ 1 := by
  unfold activate_driver
  dsimp only
  split
  · split
    · simp
    · simp
  · simp

theorem activate_driver_found (aliases : List ProfileAlias)
    (registry : List Driver) (profile : List Char) (d : Driver)
    (h : findDriver registry
        (parseProfile (scratchCopy (substAliases aliases profile))).1 = some d) :
    (activate_driver aliases registry profile).invocations =
      [(d.name, (parseProfile (scratchCopy (substAliases aliases profile))).2)] := by
  unfold activate_driver
  simp only [h]
  split
  · rfl
  · rfl

/-- Variant of the pair-loop unfolding for any positive fuel. -/
theorem parsePairs_pos (n : Nat) (hn : n ≠ 0) (cur : List Char) (h : cur ≠ []) :
    parsePairs n cur =
      match splitFirst ',' cur with
      | some r => parsePair r.1 :: parsePairs (n - 1) r.2
      | none => [parsePair cur] := by
  cases n with
  | zero => exact absurd rfl hn
  | succ m =>
    cases cur with
    | nil => exact absurd rfl h
    | cons x xs => rfl

/-- The pair loop given enough fuel to exhaust the text: with fuel strictly
greater than the text length the 32-slot bound can never be reached, so
every pair present in the text is collected. -/
def parsePairsUnbounded (cur : List Char) : List (List Char × List Char) :=
  parsePairs (cur.length + 1) cur

/-- The profile parse without the 32-slot capacity bound, for comparison
with parseProfile. -/
def parseProfileUnbounded (s : List Char) :
    List Char × List (List Char × List Char) :=
  match splitFirst ':' s with
  | none => (s, [])
  | some r => (r.1, parsePairsUnbounded r.2)

/-- A mutually-referential (cyclic) alias table: a resolves to b and b
resolves back to a. -/
def cyclicAliases : List ProfileAlias :=
  [⟨['a'], ['b'], []⟩, ⟨['b'], ['a'], []⟩]

/-- A registered driver named jtag whose activation always succeeds. -/
def jtagDriver : Driver := ⟨['j', 't', 'a', 'g'], fun _ => true⟩

/-- The argument pairs of the profile string jtag:freq=1000000,vref=3.3. -/
def jtagPairs : List (List Char × List Char) :=
  [(['f', 'r', 'e', 'q'], ['1', '0', '0', '0', '0', '0', '0']),
   (['v', 'r', 'e', 'f'], ['3', '.', '3'])]

/-- C1 counterexample: for the run with profile string ghost, an empty
alias table and an empty driver registry (so the driver name resolves to
ghost and matches no registered driver), the process does report the
failure and never invokes the server loop, but its exit status is 0, not
non-zero as claimed: main returns 0 after a failed activate_driver. -/
theorem C1_counterexample :
    (mainRun [] [] ⟨none, some ['g', 'h', 'o', 's', 't'], false, false⟩).logs =
        [LogEvent.driverNotFound ['g', 'h', 'o', 's', 't']] ∧
    (mainRun [] [] ⟨none, some ['g', 'h', 'o', 's', 't'], false, false⟩).serverInvoked
        = false ∧
    ¬ (mainRun [] [] ⟨none, some ['g', 'h', 'o', 's', 't'], false, false⟩).exitCode ≠ 0 := by
  refine ⟨rfl, rfl, ?_⟩
  intro h
  exact h rfl

/-- C1 amended: for every run whose profile string resolves (after alias
substitution and parsing) to a driver name that matches no registered
driver, the process reports the failure and never invokes the server loop,
but exits with status 0 (the failed lookup does not change main's return
value). -/
theorem C1_unresolved_driver_run (aliases : List ProfileAlias)
    (registry : List Driver) (opts : CliOptions) (p : List Char)
    (hh : opts.help = false) (hp : opts.profile = some p)
    (hnf : findDriver registry
        (parseProfile (scratchCopy (substAliases aliases p))).1 = none) :
    mainRun aliases registry opts =
      ⟨0, false,
        [LogEvent.driverNotFound
          (parseProfile (scratchCopy (substAliases aliases p))).1]⟩ := by
  unfold mainRun
  rw [hh, hp]
  simp only [Bool.false_eq_true, if_false]
  rw [activate_driver_not_found aliases registry p hnf]

/-- C1 witness: the amended theorem applied to the ghost run. -/
theorem C1_witness :
    mainRun [] [] ⟨none, some ['g', 'h', 'o', 's', 't'], false, false⟩ =
      ⟨0, false, [LogEvent.driverNotFound ['g', 'h', 'o', 's', 't']]⟩ :=
  C1_unresolved_driver_run [] [] ⟨none, some ['g', 'h', 'o', 's', 't'], false, false⟩
    ['g', 'h', 'o', 's', 't'] rfl rfl rfl

/-- C2 counterexample: on the mutually-referential alias table (a resolves
to b, b resolves back to a) with input a, the substitution step terminates
after exactly 2 substitutions and yields a: it does not loop forever, and
the number of substitutions is bounded by the table length.  The C loop
walks the sentinel-terminated table exactly once, advancing one entry per
iteration whether or not it matched. -/
theorem C2_counterexample :
    substAliasesCount cyclicAliases ['a'] = (['a'], 2) ∧
    (substAliasesCount cyclicAliases ['a']).2 ≤ cyclicAliases.length := by
  constructor
  · rfl
  · rfl

/-- C2 amended: the alias substitution step has no cycle detection, but it
is a single in-order pass over the alias table, so the number of
substitutions performed is bounded by the table length and the step always
terminates; a cyclic alias configuration merely yields a (possibly only
partially resolved) string. -/
theorem C2_substitution_bounded (t : List ProfileAlias) (p : List Char) :
    (substAliasesCount t p).2 ≤ t.length ∧
    (substAliasesCount t p).1 = substAliases t p :=
  ⟨substAliasesCount_le t p, substAliasesCount_fst t p⟩

/-- C3: for every profile string containing no colon, parsing succeeds,
the parsed driver name is the whole string and the argument list is
empty. -/
theorem C3_no_colon_whole_name (s : List Char) (h : ':' ∉ s) :
    parseProfile s = (s, []) := by
  simp only [parseProfile, (splitFirst_eq_none ':' s).mpr h]

/-- C3 witness: the theorem applied to the colon-free string ghost. -/
theorem C3_witness :
    parseProfile ['g', 'h', 'o', 's', 't'] = (['g', 'h', 'o', 's', 't'], []) :=
  C3_no_colon_whole_name ['g', 'h', 'o', 's', 't'] (by decide)

/-- C5: an argument pair containing no equals sign parses to the pair's
whole text as the name with the empty string as its value, and this is a
successful parse, not an error. -/
theorem C5_pair_without_eq (d p : List Char) (hd : ':' ∉ d) (hp : p ≠ [])
    (hpc : ',' ∉ p) (hpe : '=' ∉ p) :
    parseProfile (d ++ ':' :: p) = (d, [(p, [])]) := by
  simp only [parseProfile, splitFirst_append ':' d p hd]
  rw [parsePairs_pos maxArgs (by decide) p hp]
  rw [(splitFirst_eq_none ',' p).mpr hpc]
  simp only [parsePair, (splitFirst_eq_none '=' p).mpr hpe]

/-- C5 witness: the theorem applied to the profile string d:flag. -/
theorem C5_witness :
    parseProfile (['d'] ++ ':' :: ['f', 'l', 'a', 'g']) =
      (['d'], [(['f', 'l', 'a', 'g'], [])]) :=
  C5_pair_without_eq ['d'] ['f', 'l', 'a', 'g'] (by decide) (by decide)
    (by decide) (by decide)

/-- C6: for every profile string the parse collects at most 32 argument
pairs; the collected pairs are exactly the first 32 pairs of the unbounded
parse of the same text (later pairs are silently dropped), the driver name
is unaffected, and an over-long argument list never makes parsing fail. -/
theorem C6_capacity_bound (s : List Char) :
    (parseProfile s).1 = (parseProfileUnbounded s).1 ∧
    (parseProfile s).2 = (parseProfileUnbounded s).2.take maxArgs ∧
    (parseProfile s).2.length ≤ maxArgs := by
  cases h : splitFirst ':' s with
  | none =>
    refine ⟨?_, ?_, ?_⟩ <;> simp [parseProfile, parseProfileUnbounded, h]
  | some r =>
    have htake : parsePairs maxArgs r.2 =
        (parsePairs (r.2.length + 1) r.2).take maxArgs :=
      parsePairs_take maxArgs (r.2.length + 1) r.2 (Nat.lt_succ_self _)
    refine ⟨?_, ?_, ?_⟩
    · simp only [parseProfile, parseProfileUnbounded, h]
    · simp only [parseProfile, parseProfileUnbounded, parsePairsUnbounded, h]
      exact htake
    · simp only [parseProfile, h]
      rw [htake, List.length_take]
      exact Nat.min_le_left _ _

/-- C8: alias substitution is idempotent at a fixed point: if the profile
string matches no alias in the table, or substituting it already yields it
back unchanged, then applying the substitution step to the substituted
string yields the same string. -/
theorem C8_subst_idempotent_at_fixed_point (t : List ProfileAlias)
    (p : List Char)
    (h : (∀ a ∈ t, a.aliasName ≠ p) ∨ substAliases t p = p) :
    substAliases t (substAliases t p) = substAliases t p := by
  rcases h with h | h
  · rw [substAliases_no_match t p h, substAliases_no_match t p h]
  · rw [h, h]

/-- C8 witness: the theorem applied to a one-entry table and a string
matching no alias. -/
theorem C8_witness :
    substAliases [⟨['x'], ['y'], []⟩]
        (substAliases [⟨['x'], ['y'], []⟩] ['z']) =
      substAliases [⟨['x'], ['y'], []⟩] ['z'] :=
  C8_subst_idempotent_at_fixed_point [⟨['x'], ['y'], []⟩] ['z']
    (Or.inl (by decide))

/-- C9: a failed registry lookup never invokes any driver's activation
contract, and in every run of activate_driver the activation contract is
invoked at most once. -/
theorem C9_activation_at_most_once (aliases : List ProfileAlias)
    (registry : List Driver) (profile : List Char) :
    (findDriver registry
        (parseProfile (scratchCopy (substAliases aliases profile))).1 = none →
      (activate_driver aliases registry profile).invocations = []) ∧
    (activate_driver aliases registry profile).invocations.length ≤ 1 := by
  constructor
  · intro h
    rw [activate_driver_not_found aliases registry profile h]
  · exact activate_driver_invocations_le_one aliases registry profile

/-- C9 witness: the theorem applied to the ghost run over an empty
registry, whose lookup fails. -/
theorem C9_witness :
    (activate_driver [] [] ['g', 'h', 'o', 's', 't']).invocations = [] :=
  (C9_activation_at_most_once [] [] ['g', 'h', 'o', 's', 't']).1 rfl

/-- Activation depends on the profile string only through the resolved,
truncated scratch-buffer contents. -/
theorem activate_driver_eq_of_resolved_eq (aliases : List ProfileAlias)
    (registry : List Driver) (p q : List Char)
    (h : scratchCopy (substAliases aliases p) =
      scratchCopy (substAliases aliases q)) :
    activate_driver aliases registry p = activate_driver aliases registry q := by
  simp only [activate_driver]
  rw [h]

/-- C4: for every well-formed profile string built from a colon-free driver
name and at most 32 argument pairs whose names contain no comma and no
equals sign and whose values contain no comma, the parse yields that driver
name and exactly those pairs in textual order; and when the registry lookup
finds a driver for the name, its activation contract is invoked exactly
once with exactly those pairs in that order (and the found driver bears the
parsed name). -/
theorem C4_wellformed_profile (aliases : List ProfileAlias)
    (registry : List Driver) (d : List Char)
    (pairs : List (List Char × List Char)) (drv : Driver)
    (hd : ':' ∉ d)
    (hpairs : ∀ p ∈ pairs, ',' ∉ p.1 ∧ '=' ∉ p.1 ∧ ',' ∉ p.2)
    (hlen : pairs.length ≤ maxArgs)
    (hshort : (d ++ ':' :: renderPairs pairs).length ≤ scratchCapacity)
    (halias : ∀ a ∈ aliases, a.aliasName ≠ d ++ ':' :: renderPairs pairs)
    (hfind : findDriver registry d = some drv) :
    parseProfile (d ++ ':' :: renderPairs pairs) = (d, pairs) ∧
    (activate_driver aliases registry
        (d ++ ':' :: renderPairs pairs)).invocations = [(drv.name, pairs)] ∧
    drv.name = d := by
  have hparse : parseProfile (d ++ ':' :: renderPairs pairs) = (d, pairs) := by
    simp only [parseProfile, splitFirst_append ':' d _ hd]
    rw [parsePairs_render pairs maxArgs hlen hpairs]
  have hsub : substAliases aliases (d ++ ':' :: renderPairs pairs) =
      d ++ ':' :: renderPairs pairs := substAliases_no_match _ _ halias
  have hcopy : scratchCopy (d ++ ':' :: renderPairs pairs) =
      d ++ ':' :: renderPairs pairs := List.take_of_length_le hshort
  have hfind2 : findDriver registry
      (parseProfile (scratchCopy (substAliases aliases
        (d ++ ':' :: renderPairs pairs)))).1 = some drv := by
    rw [hsub, hcopy, hparse]
    exact hfind
  have hres := activate_driver_found aliases registry _ drv hfind2
  rw [hsub, hcopy, hparse] at hres
  have hfind3 : registry.find? (fun x => decide (x.name = d)) = some drv := hfind
  have hp := List.find?_some hfind3
  have hname : drv.name = d := of_decide_eq_true hp
  exact ⟨hparse, hres, hname⟩

/-- C4 witness: the theorem applied to jtag:freq=1000000,vref=3.3 over a
registry containing the jtag driver. -/
theorem C4_witness :
    parseProfile (['j', 't', 'a', 'g'] ++ ':' :: renderPairs jtagPairs) =
      (['j', 't', 'a', 'g'], jtagPairs) ∧
    (activate_driver [] [jtagDriver]
        (['j', 't', 'a', 'g'] ++ ':' :: renderPairs jtagPairs)).invocations =
      [(jtagDriver.name, jtagPairs)] ∧
    jtagDriver.name = ['j', 't', 'a', 'g'] :=
  C4_wellformed_profile [] [jtagDriver] ['j', 't', 'a', 'g'] jtagPairs
    jtagDriver (by decide) (by decide) (by decide) (by decide)
    (fun a ha => absurd ha (List.not_mem_nil a)) rfl

/-- C7: for every profile string longer than the 1023-character scratch
capacity (and matching no alias, so that the string reaching the scratch
buffer is the input itself), the string is silently truncated to the
capacity before parsing: the parse equals the parse of the truncated
prefix, and the whole activation outcome equals that of the truncated
prefix; parsing never fails on over-long input. -/
theorem C7_overlong_truncated (aliases : List ProfileAlias)
    (registry : List Driver) (s : List Char)
    (_hlong : scratchCapacity < s.length)
    (h1 : ∀ a ∈ aliases, a.aliasName ≠ s)
    (h2 : ∀ a ∈ aliases, a.aliasName ≠ s.take scratchCapacity) :
    parseProfile (scratchCopy (substAliases aliases s)) =
      parseProfile (s.take scratchCapacity) ∧
    activate_driver aliases registry s =
      activate_driver aliases registry (s.take scratchCapacity) := by
  have e1 : substAliases aliases s = s := substAliases_no_match aliases s h1
  have e2 : substAliases aliases (s.take scratchCapacity) =
      s.take scratchCapacity := substAliases_no_match aliases _ h2
  have etake : scratchCopy (s.take scratchCapacity) = s.take scratchCapacity := by
    unfold scratchCopy
    rw [List.take_take, Nat.min_self]
  constructor
  · rw [e1]
    rfl
  · apply activate_driver_eq_of_resolved_eq
    rw [e1, e2, etake]
    rfl

/-- C7 witness: the theorem applied to a 1024-character profile string. -/
theorem C7_witness :
    scratchCapacity < (List.replicate 1024 'a').length ∧
    activate_driver [] [] (List.replicate 1024 'a') =
      activate_driver [] [] ((List.replicate 1024 'a').take scratchCapacity) :=
  ⟨by rw [List.length_replicate]; decide,
   (C7_overlong_truncated [] [] (List.replicate 1024 'a')
     (by rw [List.length_replicate]; decide)
     (fun a ha => absurd ha (List.not_mem_nil a))
     (fun a ha => absurd ha (List.not_mem_nil a))).2⟩

/-- C10: a trailing separator with nothing after it produces no additional
argument pair: a profile of a colon-free driver name followed by a bare
colon parses the same as the name alone, and appending a trailing comma to
a non-empty argument text (not itself ending in a comma) leaves the parsed
pairs unchanged — the pair loop stops on empty remaining text instead of
emitting an empty-named pair. -/
theorem C10_trailing_separator (d rest : List Char) (hd : ':' ∉ d)
    (hrest : rest ≠ []) (hlast : rest.getLast? ≠ some ',') :
    parseProfile (d ++ [':']) = parseProfile d ∧
    parseProfile (d ++ ':' :: (rest ++ [','])) =
      parseProfile (d ++ ':' :: rest) := by
  constructor
  · have h1 : splitFirst ':' (d ++ [':']) = some (d, []) :=
      splitFirst_append ':' d [] hd
    have h2 : splitFirst ':' d = none := (splitFirst_eq_none ':' d).mpr hd
    simp only [parseProfile, h1, h2, parsePairs_nil]
  · have h1 : splitFirst ':' (d ++ ':' :: (rest ++ [','])) =
        some (d, rest ++ [',']) := splitFirst_append ':' d _ hd
    have h2 : splitFirst ':' (d ++ ':' :: rest) = some (d, rest) :=
      splitFirst_append ':' d rest hd
    simp only [parseProfile, h1, h2]
    rw [parsePairs_append_comma maxArgs rest hrest hlast]

/-- C10 witness: the theorem applied to d: versus d, and d:a=1, versus
d:a=1. -/
theorem C10_witness :
    parseProfile (['d'] ++ [':']) = parseProfile ['d'] ∧
    parseProfile (['d'] ++ ':' :: (['a', '=', '1'] ++ [','])) =
      parseProfile (['d'] ++ ':' :: ['a', '=', '1']) :=
  C10_trailing_separator ['d'] ['a', '=', '1'] (by decide) (by decide)
    (by decide)
